import Mathlib

set_option maxRecDepth 10000

/-!
Verification of the microfrontend Vite plugin's CSS event-dispatch subsystem.

The definitions below are a shallow embedding of the `mfeCss` plugin
(`dispatch`, `transform`, `generateBundle`) and of the runtime helper
`getStyle`.  JavaScript machine details that the source relies on are made
explicit: plain objects are insertion-ordered association lists whose
enumeration (`Object.values`) lists array-index-like keys first in ascending
numeric order, and `String.prototype.replace` without a global flag rewrites
only the first match.
-/

namespace MfeVite

/-! ## JavaScript object model

`styles` in `dispatch` is a plain JS object used as a map from fragment id to
CSS text.  Assignment `styles[id] = style` updates in place when the key
exists and otherwise appends the key at the end of the insertion order. -/

/-- JS property assignment `o[k] = v` on a plain object modelled as an
insertion-ordered association list (object keys are unique): an existing key
keeps its position and gets the new value, a new key is appended. -/
def objUpsert {α : Type} : List (String × α) → String → α → List (String × α)
  | [], k, v => [(k, v)]
  | p :: r, k, v => if p.1 == k then (k, v) :: r else p :: objUpsert r k v

/-- Decimal digit value of a character, if any. -/
def charDigit? (c : Char) : Option Nat :=
  if 48 ≤ c.toNat ∧ c.toNat ≤ 57 then some (c.toNat - 48) else none

/-- Parse a nonempty all-digit character list as a decimal number. -/
def decParse? (cs : List Char) : Option Nat :=
  if cs = [] then none
  else cs.foldl (fun a c =>
    match a, charDigit? c with
    | some n, some d => some (n * 10 + d)
    | _, _ => none) (some 0)

/-- Decimal digits of a positive number (`fuel` bounds the recursion depth;
callers pass a fuel at least the number itself). -/
def decDigits : Nat → Nat → List Char
  | 0, _ => []
  | _ + 1, 0 => []
  | fuel + 1, n + 1 =>
    decDigits fuel ((n + 1) / 10) ++ [Char.ofNat (48 + (n + 1) % 10)]

/-- Decimal representation of a number. -/
def decRepr (n : Nat) : String := if n = 0 then "0" else ⟨decDigits n n⟩

/-- Whether a string is a canonical array-index property key (ECMAScript:
the decimal representation of an integer below 2^32 - 1). -/
def isArrayIndex (s : String) : Bool :=
  match decParse? s.data with
  | some n => decRepr n == s && n < 4294967295
  | none => false

/-- Numeric value of an array-index key. -/
def numKey (s : String) : Nat := (decParse? s.data).getD 0

/-- ECMAScript `OrdinaryOwnPropertyKeys` restricted to string keys: the
array-index keys in ascending numeric order, then the remaining keys in
insertion order. -/
def jsKeys (ks : List String) : List String :=
  (((ks.filter (fun k => isArrayIndex k)).map numKey).insertionSort (· ≤ ·)).map decRepr
    ++ ks.filter (fun k => !isArrayIndex k)

/-- `Object.values o`: enumerate the own keys in JS property order and read
each one. -/
def objValues (r : List (String × String)) : List String :=
  (jsKeys (r.map (fun p => p.1))).map (fun k => (r.lookup k).getD "")

/-- `Array.prototype.join sep`. -/
def joinSep (sep : String) : List String → String
  | [] => ""
  | [x] => x
  | x :: y :: xs => x ++ sep ++ joinSep sep (y :: xs)

/-- The payload of the `{identity}-styles` event:
`Object.values(styles).join(sep)`.  The first plugin implementation joins
with `''`, the second (duplicate) implementation with `'\n'`. -/
def aggregate (sep : String) (r : List (String × String)) : String :=
  joinSep sep (objValues r)

/-! ## The page-global window state touched by `dispatch` -/

/-- The slice of the browser `window` that `dispatch` reads and writes:
the `` `${mfe}-styles` `` registries (one association list per identity) and
the identities for which a `` `${mfe}-styles-request` `` listener has been
registered (a multiset, since `addEventListener` is called with a fresh
closure each time). -/
structure Window where
  styles : List (String × List (String × String))
  listeners : List String
  deriving Repr, DecidableEq

def emptyWindow : Window := ⟨[], []⟩

/-- `window[`mfe`-styles]`, with a missing registry read as the empty style
set (the `??= \x7b\x7d` in the source). -/
def regOf (w : Window) (m : String) : List (String × String) :=
  (w.styles.lookup m).getD []

/-- Fragment ids currently present in an identity's registry. -/
def regKeys (w : Window) (m : String) : List String :=
  (regOf w m).map (fun p => p.1)

/-- Dispatching `new Event(`mfe`-styles-request`)`: each registered request
listener for `m` synchronously fires a `{m}-styles` `CustomEvent` whose
`detail` is the aggregate computed from the live registry at fire time.  The
result is the list of delivered `{m}-styles` payloads. -/
def emitRequest (sep : String) (w : Window) (m : String) : List String :=
  (w.listeners.filter (fun x => x == m)).map (fun _ => aggregate sep (regOf w m))

/-- The `dispatch` function of the `mfeCss` plugin (source lines 156-164;
the near-duplicate at lines 380-387 differs only in taking the identity as a
parameter and joining with `'\n'`, covered here by the `sep` parameter):

* `setup` records whether the identity's registry is missing;
* `styles[id] = style` upserts the fragment;
* on first write a `{m}-styles-request` listener re-emitting the aggregate
  is registered;
* finally a `{m}-styles-request` event is fired, so every request listener
  re-emits the `{m}-styles` aggregate event.

Returns the updated window and the `{m}-styles` payloads delivered to
subscribers during the call. -/
def dispatch (sep m i s : String) (w : Window) : Window × List String :=
  let setup := (w.styles.lookup m).isNone
  let r := objUpsert (regOf w m) i s
  let w₁ : Window := ⟨objUpsert w.styles m r, w.listeners⟩
  let w₂ : Window := if setup then ⟨w₁.styles, w₁.listeners ++ [m]⟩ else w₁
  (w₂, emitRequest sep w₂ m)

/-- The spec's `publish(identity, fragmentId, cssText)` operation is the
dispatcher itself. -/
def publish (sep m i s : String) (w : Window) : Window × List String :=
  dispatch sep m i s w

/-- The operation generated by the dev-time rewrite of
`__vite__removeStyle(...)`: the same dispatcher applied with `''` as the CSS
text. -/
def removeOp (sep m i : String) (w : Window) : Window × List String :=
  dispatch sep m i "" w

/-- Run a sequence of publish/remove calls (each op is a fragment id and a
CSS text, `""` encoding removal) for one identity. -/
def applyOps (sep m : String) (ops : List (String × String)) (w : Window) : Window :=
  ops.foldl (fun w p => (dispatch sep m p.1 p.2 w).1) w

/-- `getStyle` (src/index.ts lines 29-38): the fresh element subscribes to
`{m}-styles` (replacing its children with the payload of each event) and
then fires `{m}-styles-request`; its content after the call is the last
payload delivered, `none` when no event was received. -/
def getStyleContent (sep : String) (w : Window) (m : String) : Option String :=
  (emitRequest sep w m).getLast?

/-- Window states reachable by the runtime protocol: one request listener
per identity with a registry and none otherwise. -/
def wf (w : Window) : Prop :=
  ∀ m, w.listeners.count m = if (w.styles.lookup m).isSome then 1 else 0

/-! ## Specification-side aggregate (for claim C1)

These recompute, directly from an operation sequence, what the spec says the
aggregate should be. -/

/-- First-write (insertion) order of the fragment ids of an op sequence. -/
def firstWrites : List (String × String) → List String
  | [] => []
  | (i, _) :: rest => i :: (firstWrites rest).filter (fun j => j ≠ i)

/-- The latest text stored for a fragment id by an op sequence. -/
def latestOpt (ops : List (String × String)) (i : String) : Option String :=
  ops.foldl (fun a p => if p.1 = i then some p.2 else a) none

/-- The claim's aggregate as literally stated: concatenation in first-write
order of the latest text per fragment id. -/
def insertionAggregate (sep : String) (ops : List (String × String)) : String :=
  joinSep sep ((firstWrites ops).map (fun i => (latestOpt ops i).getD ""))

/-- The aggregate the code actually delivers: the same latest texts, but
enumerated in JS property order (array-index fragment ids first in ascending
numeric order, then the rest in first-write order). -/
def jsAggregate (sep : String) (ops : List (String × String)) : String :=
  joinSep sep ((jsKeys (firstWrites ops)).map (fun i => (latestOpt ops i).getD ""))

/-- The per-identity registry produced by a pure fold of upserts. -/
def buildReg (ops : List (String × String)) : List (String × String) :=
  ops.foldl (fun r p => objUpsert r p.1 p.2) []

/-! ## Build-time string processing

The `transform` and `generateBundle` hooks of `mfeCss` are text rewriters.
JS regex/replace semantics are embedded over `List Char`: `.` never matches
a newline, `.+` is greedy with backtracking, `.+?` is lazy, `replace`
without a global flag rewrites only the first match, and replacement
strings undergo `$`-pattern substitution. -/

/-- All positions of `l` at which `pat` occurs. -/
def occurs (pat l : List Char) : List Nat :=
  (List.range (l.length + 1)).filter (fun i => pat.isPrefixOf (l.drop i))

def linkLit : List Char := "<link".toList

def hrefLit : List Char := "href=\"./".toList

def cssEndLit : List Char := ".css\">".toList

/-- Match, at the head of `cs`, of the regex `<link.+href="\.\/.+\.css">`
used by `generateBundle` (lines 184 and 399) to strip stylesheet links.
Both `.+` are greedy and confined to the current line; with backtracking the
match exists exactly when some `href="./` occurrence at offset ≥ 6 is
followed (at distance ≥ 1) by some `.css">` occurrence, and the match then
extends to the last `.css">` of the line.  Returns the match length. -/
def linkMatchLen (cs : List Char) : Option Nat :=
  if linkLit.isPrefixOf cs then
    let line := cs.takeWhile (fun c => c ≠ '\n')
    match ((occurs hrefLit line).filter (fun h => 6 ≤ h)).min?,
        (occurs cssEndLit line).max? with
    | some h, some e => if h + 9 ≤ e then some (e + 6) else none
    | _, _ => none
  else none

/-- Global replacement with the empty string of every `linkMatchLen` match
(`html.source.replaceAll(/<link.+href="\.\/.+\.css">/g, '')`); scanning
resumes after each match.  The fuel is an upper bound on the scanned length;
every step consumes at least one character. -/
def stripGo : Nat → List Char → List Char
  | 0, l => l
  | _ + 1, [] => []
  | fuel + 1, c :: cs =>
    match linkMatchLen (c :: cs) with
    | some n => stripGo fuel ((c :: cs).drop n)
    | none => c :: stripGo fuel cs

def stripCssLinks (s : String) : String := ⟨stripGo s.data.length s.data⟩

def tick : Char := Char.ofNat 96

def quot1 : Char := Char.ofNat 39

/-- `$`-pattern substitution applied by `String.prototype.replace` to its
replacement string: `$$`, `` $` ``, `$'` and `$&` are special (there are no
capture groups in the plugin's patterns, so `$n` stays literal). -/
def dollarSubst (pre mtch post : List Char) : List Char → List Char
  | [] => []
  | '$' :: '$' :: r => '$' :: dollarSubst pre mtch post r
  | '$' :: '&' :: r => mtch ++ dollarSubst pre mtch post r
  | '$' :: c :: r =>
    if c = tick then pre ++ dollarSubst pre mtch post r
    else if c = quot1 then post ++ dollarSubst pre mtch post r
    else '$' :: dollarSubst pre mtch post (c :: r)
  | c :: r => c :: dollarSubst pre mtch post r

/-- `s.replace(pat, repl)` with a plain-string pattern: JS replaces only the
first occurrence, applying `$`-substitution to the replacement. -/
def replFirstLitGo (pat repl pre : List Char) : List Char → List Char
  | [] => []
  | c :: cs =>
    if pat.isPrefixOf (c :: cs) then
      dollarSubst pre.reverse pat ((c :: cs).drop pat.length) repl ++
        (c :: cs).drop pat.length
    else c :: replFirstLitGo pat repl (c :: pre) cs

def jsReplaceFirst (s pat repl : String) : String :=
  ⟨replFirstLitGo pat.data repl.data [] s.data⟩

/-- Match, at the head of `cs`, of a regex of the shape `lit` followed by
`.+?\)` (the transform patterns `__vite__updateStyle\(.+?\)` and
`__vite__removeStyle\(.+?\)`): lazy, so the match ends at the first `)`
at distance ≥ 1 after `lit`, within the current line. -/
def lazyCallMatchLen (lit : List Char) (cs : List Char) : Option Nat :=
  if lit.isPrefixOf cs then
    let line := (cs.drop lit.length).takeWhile (fun c => c ≠ '\n')
    match ((List.range line.length).filter
        (fun k => decide (1 ≤ k) && ((line.drop k).head? == some ')'))).min? with
    | some k => some (lit.length + k + 1)
    | none => none
  else none

/-- `code.replace(regex, repl)` without a global flag: only the first match
is rewritten, the rest of the text is kept as is. -/
def replFirstReGo (mt : List Char → Option Nat) (repl pre : List Char) :
    List Char → List Char
  | [] => []
  | c :: cs =>
    match mt (c :: cs) with
    | some n =>
      dollarSubst pre.reverse ((c :: cs).take n) ((c :: cs).drop n) repl ++
        (c :: cs).drop n
    | none => c :: replFirstReGo mt repl (c :: pre) cs

def updLit : List Char := "__vite__updateStyle(".toList

def rmvLit : List Char := "__vite__removeStyle(".toList

/-- Replacement text of the update-style rewrite,
`` ;(${dispatch})(__vite__id,__vite__css) ``.  `dispatchSrc` is the
stringification of the compiled `dispatch` function, an input produced by
the plugin's own bundling. -/
def updReplStr (dispatchSrc : String) : String :=
  ";(" ++ dispatchSrc ++ ")(__vite__id,__vite__css)"

/-- Replacement text of the remove-style rewrite,
`` (${dispatch})(__vite__id,'') ``: the same dispatch source applied with
the empty string as the CSS text. -/
def rmvReplStr (dispatchSrc : String) : String :=
  "(" ++ dispatchSrc ++ ")(__vite__id," ++ ⟨[quot1, quot1]⟩ ++ ")"

/-- The `transform` hook of `mfeCss` (lines 168-171): rewrite the first
`__vite__updateStyle(...)` call, then the first `__vite__removeStyle(...)`
call of the result, into dispatcher invocations. -/
def transformMfeCss (dispatchSrc : String) (code : String) : String :=
  ⟨replFirstReGo (lazyCallMatchLen rmvLit) (rmvReplStr dispatchSrc).data []
    (replFirstReGo (lazyCallMatchLen updLit) (updReplStr dispatchSrc).data []
      code.data)⟩

/-! ## CSS escaping and template-literal evaluation (generateBundle) -/

/-- JS whitespace for `String.prototype.trim` (the characters relevant to
CSS sources). -/
def isWSp (c : Char) : Bool :=
  c = ' ' || c = '\t' || c = '\n' || c = '\r' || c = Char.ofNat 12 ||
    c = Char.ofNat 11

def trimChars (cs : List Char) : List Char :=
  ((cs.dropWhile isWSp).reverse.dropWhile isWSp).reverse

/-- `replaceAll` of a backtick with a backslash-backtick pair. -/
def escTicks : List Char → List Char
  | [] => []
  | c :: cs => if c = tick then '\\' :: tick :: escTicks cs else c :: escTicks cs

/-- The escaping `generateBundle` applies to each CSS asset before splicing
it into the generated template literal:
`source.toString().trim().replaceAll('&#96;', '\\&#96;')` (lines 188, 403),
i.e. trim, then escape each backtick. -/
def escapeStyle (s : String) : String := ⟨escTicks (trimChars s.data)⟩

def hexVal? (c : Char) : Option Nat :=
  if 48 ≤ c.toNat ∧ c.toNat ≤ 57 then some (c.toNat - 48)
  else if 97 ≤ c.toNat ∧ c.toNat ≤ 102 then some (c.toNat - 87)
  else if 65 ≤ c.toNat ∧ c.toNat ≤ 70 then some (c.toNat - 55)
  else none

/-- Single-character JS escape sequences (`\n`, `\t`, ...; any other
character escapes to itself, covering `\\` and the escaped backtick). -/
def unescChar (c : Char) : Char :=
  if c = 'n' then '\n'
  else if c = 't' then '\t'
  else if c = 'r' then '\r'
  else if c = 'b' then Char.ofNat 8
  else if c = 'f' then Char.ofNat 12
  else if c = 'v' then Char.ofNat 11
  else if c = '0' then Char.ofNat 0
  else c

/-- Evaluation of a template-literal body (the text standing between the
opening and closing backticks of the generated code): JavaScript's template
literal semantics.  Returns `none` when the body does not evaluate back to
literal text: an unescaped backtick terminates the literal early (the
generated statement is broken), an unescaped `${` starts an interpolation
(the value is no longer the spliced text), and a trailing lone backslash
escapes the closing delimiter. -/
def templBody : List Char → Option (List Char)
  | [] => some []
  | '\\' :: 'x' :: h1 :: h2 :: cs =>
    match hexVal? h1, hexVal? h2 with
    | some a, some b => (templBody cs).map (fun r => Char.ofNat (16 * a + b) :: r)
    | _, _ => none
  | '\\' :: 'u' :: h1 :: h2 :: h3 :: h4 :: cs =>
    match hexVal? h1, hexVal? h2, hexVal? h3, hexVal? h4 with
    | some a, some b, some c, some d =>
      (templBody cs).map (fun r => Char.ofNat (((16 * a + b) * 16 + c) * 16 + d) :: r)
    | _, _, _, _ => none
  | ['\\'] => none
  | '\\' :: c :: cs => (templBody cs).map (fun r => unescChar c :: r)
  | c :: cs =>
    if c = tick then none
    else if c = '$' ∧ cs.head? = some (Char.ofNat 123) then none
    else (templBody cs).map (fun r => c :: r)

/-! ## The bundle model for generateBundle -/

/-- An output asset (`OutputAsset`): file name and source text. -/
structure OutAsset where
  fileName : String
  source : String
  deriving Repr, DecidableEq

/-- An output chunk (`OutputChunk`): name, code, and the
`viteMetadata.importedCss` set of CSS asset file names. -/
structure OutChunk where
  name : String
  code : String
  importedCss : List String
  deriving Repr, DecidableEq

/-- The fragment text generateBundle builds for a chunk: the CSS assets of
the bundle whose file names the chunk imports (in bundle order), each
trimmed and backtick-escaped, joined (with `''` in the first implementation,
`'\n'` in the second). -/
def chunkStyleText (sep : String) (css : List OutAsset) (ch : OutChunk) : String :=
  joinSep sep ((css.filter (fun a => ch.importedCss.contains a.fileName)).map
    (fun a => escapeStyle a.source))

/-- Per-chunk step of `generateBundle` (lines 185-191): skip the chunk when
no bundle CSS asset matches its imports; otherwise append
`\n;` and the compiled dispatcher call (its `(args)` placeholder replaced by
the backtick-quoted chunk name and fragment text) to the code, and clear the
imported-CSS metadata. -/
def processChunk (sep dispatchCompiled : String) (css : List OutAsset)
    (ch : OutChunk) : OutChunk :=
  let styles := css.filter (fun a => ch.importedCss.contains a.fileName)
  if styles.isEmpty then ch
  else
    { ch with
      code := ch.code ++ "\n;" ++
        jsReplaceFirst dispatchCompiled "(args)"
          ("(" ++ (⟨[tick]⟩ : String) ++ ch.name ++ (⟨[tick]⟩ : String) ++ "," ++
            (⟨[tick]⟩ : String) ++ chunkStyleText sep css ch ++
            (⟨[tick]⟩ : String) ++ ")"),
      importedCss := [] }

/-- The HTML pass of `generateBundle`: strip the matched stylesheet links
from every HTML asset's source. -/
def generateBundleHtml (htmls : List OutAsset) : List OutAsset :=
  htmls.map (fun h => { h with source := stripCssLinks h.source })

/-- The JS pass of `generateBundle`: process every chunk against the
bundle's CSS assets. -/
def generateBundleJs (sep dispatchCompiled : String) (css : List OutAsset)
    (js : List OutChunk) : List OutChunk :=
  js.map (processChunk sep dispatchCompiled css)

/-! ## Association-list lemmas -/

theorem objUpsert_map_fst {α : Type} (r : List (String × α)) (k : String) (v : α) :
    (objUpsert r k v).map (fun p => p.1) =
      if k ∈ r.map (fun p => p.1) then r.map (fun p => p.1)
      else r.map (fun p => p.1) ++ [k] := by
  induction r with
  | nil => simp [objUpsert]
  | cons p r ih =>
    by_cases h : p.1 = k
    · simp [objUpsert, h]
    · have hb : (p.1 == k) = false := by simp [h]
      simp only [objUpsert, hb, Bool.false_eq_true, if_false, List.map_cons, ih,
        List.mem_cons]
      by_cases hk : k ∈ r.map (fun p => p.1) <;> simp [hk, h, Ne.symm h]

theorem objUpsert_map_fst_of_mem {α : Type} {r : List (String × α)} {k : String}
    (v : α) (h : k ∈ r.map (fun p => p.1)) :
    (objUpsert r k v).map (fun p => p.1) = r.map (fun p => p.1) := by
  simp [objUpsert_map_fst, h]

theorem objUpsert_of_notMem {α : Type} {r : List (String × α)} {k : String}
    (v : α) (h : k ∉ r.map (fun p => p.1)) :
    objUpsert r k v = r ++ [(k, v)] := by
  induction r with
  | nil => simp [objUpsert]
  | cons p r ih =>
    simp only [List.map_cons, List.mem_cons] at h
    push_neg at h
    have hb : (p.1 == k) = false := by simp [Ne.symm h.1]
    simp [objUpsert, hb, ih h.2]

theorem lookup_objUpsert_self {α : Type} (r : List (String × α)) (k : String) (v : α) :
    (objUpsert r k v).lookup k = some v := by
  induction r with
  | nil => simp [objUpsert, List.lookup]
  | cons p r ih =>
    by_cases h : p.1 = k
    · simp [objUpsert, h, List.lookup]
    · have hb : (p.1 == k) = false := by simp [h]
      have hb' : (k == p.1) = false := by simp [Ne.symm h]
      simp [objUpsert, hb, List.lookup, hb', ih]

theorem lookup_objUpsert_ne {α : Type} (r : List (String × α)) {k k' : String} (v : α)
    (h : k' ≠ k) : (objUpsert r k v).lookup k' = r.lookup k' := by
  have hkk : (k' == k) = false := by simp [h]
  induction r with
  | nil => simp [objUpsert, List.lookup, hkk]
  | cons p r ih =>
    by_cases hp : p.1 = k
    · have : (k' == k) = false := by simp [h]
      simp [objUpsert, hp, List.lookup, this]
    · have hb : (p.1 == k) = false := by simp [hp]
      by_cases hpk : k' = p.1
      · simp [objUpsert, hb, List.lookup, hpk]
      · have : (k' == p.1) = false := by simp [hpk]
        simp [objUpsert, hb, List.lookup, this, ih]

theorem objUpsert_idem {α : Type} (r : List (String × α)) (k : String) (v : α) :
    objUpsert (objUpsert r k v) k v = objUpsert r k v := by
  induction r with
  | nil => simp [objUpsert]
  | cons p r ih =>
    by_cases h : p.1 = k
    · simp [objUpsert, h]
    · have hb : (p.1 == k) = false := by simp [h]
      simp [objUpsert, hb, ih]

theorem objUpsert_eq_self_of_lookup {α : Type} {r : List (String × α)} {k : String}
    {v : α} (h : r.lookup k = some v) : objUpsert r k v = r := by
  induction r with
  | nil => simp [List.lookup] at h
  | cons p r ih =>
    by_cases hp : k = p.1
    · have : (k == p.1) = true := by simp [hp]
      simp only [List.lookup, this] at h
      have hb : (p.1 == k) = true := by simp [hp]
      cases p with
      | mk a b =>
        simp only at hb
        simp only [Option.some.injEq] at h
        simp only at hp
        simp [objUpsert, hb, ← hp, h]
    · have : (k == p.1) = false := by simp [hp]
      simp only [List.lookup, this] at h
      have hb : (p.1 == k) = false := by simp [Ne.symm hp]
      simp [objUpsert, hb, ih h]

theorem lookup_append {α : Type} (r t : List (String × α)) (k : String) :
    (r ++ t).lookup k = ((r.lookup k).map some).getD (t.lookup k) := by
  induction r with
  | nil => simp [List.lookup]
  | cons p r ih =>
    by_cases h : k = p.1
    · simp [List.lookup, h]
    · have : (k == p.1) = false := by simp [h]
      simp [List.lookup, this, ih]

theorem lookup_isSome_of_mem {α : Type} {r : List (String × α)} {k : String}
    (h : k ∈ r.map (fun p => p.1)) : (r.lookup k).isSome := by
  induction r with
  | nil => simp at h
  | cons p r ih =>
    simp only [List.map_cons, List.mem_cons] at h
    by_cases hk : k = p.1
    · simp [List.lookup, hk]
    · have : (k == p.1) = false := by simp [hk]
      simp only [List.lookup, this]
      exact ih (h.resolve_left hk)

theorem lookup_eq_none_of_notMem {α : Type} {r : List (String × α)} {k : String}
    (h : k ∉ r.map (fun p => p.1)) : r.lookup k = none := by
  induction r with
  | nil => simp [List.lookup]
  | cons p r ih =>
    simp only [List.map_cons, List.mem_cons] at h
    push_neg at h
    have : (k == p.1) = false := by simp [h.1]
    simp [List.lookup, this, ih h.2]

theorem lookup_map_graph {g : String → String} {l : List String} {k : String}
    (h : k ∈ l) :
    ((l.map (fun j => (j, g j))).lookup k) = some (g k) := by
  induction l with
  | nil => simp at h
  | cons a l ih =>
    by_cases hk : k = a
    · simp [List.lookup, hk]
    · have : (k == a) = false := by simp [hk]
      simp only [List.map_cons, List.lookup, this]
      exact ih ((List.mem_cons.mp h).resolve_left hk)

/-! ## Single-step `dispatch` lemmas -/

theorem styles_dispatch (sep m i s : String) (w : Window) :
    (dispatch sep m i s w).1.styles =
      objUpsert w.styles m (objUpsert (regOf w m) i s) := by
  unfold dispatch
  by_cases h : (w.styles.lookup m).isNone <;> simp [h]

theorem listeners_dispatch (sep m i s : String) (w : Window) :
    (dispatch sep m i s w).1.listeners =
      if (w.styles.lookup m).isNone then w.listeners ++ [m] else w.listeners := by
  unfold dispatch
  by_cases h : (w.styles.lookup m).isNone <;> simp [h]

theorem lookup_styles_dispatch_self (sep m i s : String) (w : Window) :
    (dispatch sep m i s w).1.styles.lookup m =
      some (objUpsert (regOf w m) i s) := by
  rw [styles_dispatch, lookup_objUpsert_self]

theorem regOf_dispatch (sep m i s : String) (w : Window) :
    regOf (dispatch sep m i s w).1 m = objUpsert (regOf w m) i s := by
  unfold regOf
  rw [lookup_styles_dispatch_self]
  rfl

theorem lookup_styles_dispatch_ne (sep m i s : String) (w : Window) {m' : String}
    (h : m' ≠ m) :
    (dispatch sep m i s w).1.styles.lookup m' = w.styles.lookup m' := by
  rw [styles_dispatch, lookup_objUpsert_ne _ _ h]

theorem wf_dispatch (sep m i s : String) {w : Window} (h : wf w) :
    wf (dispatch sep m i s w).1 := by
  intro m'
  rw [listeners_dispatch]
  by_cases hm : m' = m
  · subst hm
    rw [lookup_styles_dispatch_self]
    by_cases hs : (w.styles.lookup m').isNone
    · have h0 := h m'
      rw [Option.isNone_iff_eq_none] at hs
      simp [hs] at h0
      simp [hs, h0]
    · have h1 := h m'
      have : (w.styles.lookup m').isSome := by
        cases hl : w.styles.lookup m' <;> simp_all
      simp [this] at h1
      simp [hs, h1]
  · rw [lookup_styles_dispatch_ne sep m i s w hm]
    by_cases hs : (w.styles.lookup m).isNone
    · simp only [hs, if_true, List.count_append]
      have : List.count m' [m] = 0 := by
        simp [List.count_singleton, hm]
      rw [this, Nat.add_zero]
      exact h m'
    · simp only [hs, if_false]
      exact h m'

theorem filter_count_singleton {l : List String} {m : String}
    (h : l.count m = 1) : l.filter (fun x => x == m) = [m] := by
  have := List.filter_beq l m
  rw [this, h, List.replicate_one]

theorem emit_dispatch (sep m i s : String) {w : Window} (h : wf w) :
    (dispatch sep m i s w).2 =
      [aggregate sep (objUpsert (regOf w m) i s)] := by
  have hw : wf (dispatch sep m i s w).1 := wf_dispatch sep m i s h
  have h1 : (dispatch sep m i s w).1.listeners.count m = 1 := by
    have := hw m
    rw [lookup_styles_dispatch_self] at this
    simpa using this
  have hemit : (dispatch sep m i s w).2 =
      emitRequest sep (dispatch sep m i s w).1 m := by
    unfold dispatch
    by_cases hs : (w.styles.lookup m).isNone <;> simp [hs]
  rw [hemit]
  unfold emitRequest
  rw [filter_count_singleton h1, regOf_dispatch]
  simp

/-! ## Lemmas about op sequences -/

theorem applyOps_nil (sep m : String) (w : Window) : applyOps sep m [] w = w := rfl

theorem applyOps_cons (sep m : String) (p : String × String)
    (ops : List (String × String)) (w : Window) :
    applyOps sep m (p :: ops) w = applyOps sep m ops (dispatch sep m p.1 p.2 w).1 := rfl

theorem applyOps_append (sep m : String) (ops₁ ops₂ : List (String × String))
    (w : Window) :
    applyOps sep m (ops₁ ++ ops₂) w = applyOps sep m ops₂ (applyOps sep m ops₁ w) :=
  List.foldl_append ..

theorem wf_applyOps (sep m : String) (ops : List (String × String)) {w : Window}
    (h : wf w) : wf (applyOps sep m ops w) := by
  induction ops generalizing w with
  | nil => exact h
  | cons p ops ih => exact ih (wf_dispatch sep m p.1 p.2 h)

theorem wf_emptyWindow : wf emptyWindow := by
  intro m
  simp [emptyWindow, List.lookup]

theorem regOf_applyOps (sep m : String) (ops : List (String × String)) (w : Window) :
    regOf (applyOps sep m ops w) m =
      ops.foldl (fun r p => objUpsert r p.1 p.2) (regOf w m) := by
  induction ops generalizing w with
  | nil => rfl
  | cons p ops ih =>
    rw [applyOps_cons, ih, regOf_dispatch]
    rfl

theorem regOf_applyOps_empty (sep m : String) (ops : List (String × String)) :
    regOf (applyOps sep m ops emptyWindow) m = buildReg ops := by
  rw [regOf_applyOps]
  rfl

theorem lookup_styles_applyOps_isSome (sep m : String) {ops : List (String × String)}
    (h : ops ≠ []) (w : Window) :
    ((applyOps sep m ops w).styles.lookup m).isSome := by
  induction ops generalizing w with
  | nil => exact absurd rfl h
  | cons p ops ih =>
    rw [applyOps_cons]
    cases ops with
    | nil =>
      rw [applyOps_nil, lookup_styles_dispatch_self]
      rfl
    | cons q ops' => exact ih (by simp) _

/-! ## Characterizing the registry built by an op sequence -/

theorem firstWrites_nodup (ops : List (String × String)) : (firstWrites ops).Nodup := by
  induction ops with
  | nil => simp [firstWrites]
  | cons p ops ih =>
    cases p with
    | mk i s =>
      simp only [firstWrites, List.nodup_cons]
      refine ⟨fun h => ?_, ih.filter _⟩
      have := List.of_mem_filter h
      simp at this

theorem firstWrites_append_single (ops : List (String × String)) (i s : String) :
    firstWrites (ops ++ [(i, s)]) =
      if i ∈ firstWrites ops then firstWrites ops else firstWrites ops ++ [i] := by
  induction ops with
  | nil => simp [firstWrites]
  | cons p ops ih =>
    cases p with
    | mk j t =>
      by_cases hij : i = j
      · subst hij
        have hcond : i ∈ firstWrites ((i, t) :: ops) := by simp [firstWrites]
        rw [if_pos hcond]
        simp only [List.cons_append, firstWrites]
        congr 1
        simp only [List.append_eq]
        rw [ih]
        by_cases hmem : i ∈ firstWrites ops
        · rw [if_pos hmem]
        · rw [if_neg hmem, List.filter_append]
          simp
      · simp only [List.cons_append, firstWrites, List.append_eq]
        rw [ih]
        by_cases hmem : i ∈ firstWrites ops
        · have hcond : i ∈ j :: List.filter (fun x => decide (x ≠ j)) (firstWrites ops) :=
            List.mem_cons.mpr (Or.inr (List.mem_filter.mpr ⟨hmem, by simp [hij]⟩))
          rw [if_pos hmem, if_pos hcond]
        · have hcond : i ∉ j :: List.filter (fun x => decide (x ≠ j)) (firstWrites ops) := by
            simp only [List.mem_cons, List.mem_filter]
            rintro (h | h)
            · exact hij h
            · exact hmem h.1
          rw [if_neg hmem, if_neg hcond, List.filter_append]
          have hfi : List.filter (fun x => decide (x ≠ j)) [i] = [i] := by simp [hij]
          simp [hfi, hij]

theorem latestOpt_append_single (ops : List (String × String)) (i s j : String) :
    latestOpt (ops ++ [(i, s)]) j = if i = j then some s else latestOpt ops j := by
  unfold latestOpt
  rw [List.foldl_append]
  rfl

theorem latestOpt_foldl_or (j : String) (ops : List (String × String))
    (a : Option String) :
    ops.foldl (fun acc p => if p.1 = j then some p.2 else acc) a =
      (latestOpt ops j).or a := by
  induction ops generalizing a with
  | nil => simp [latestOpt]
  | cons p ops ih =>
    have hlat : latestOpt (p :: ops) j =
        (latestOpt ops j).or (if p.1 = j then some p.2 else none) := by
      unfold latestOpt
      rw [List.foldl_cons, ih]
      rfl
    rw [List.foldl_cons, ih, hlat]
    by_cases hp : p.1 = j
    · simp only [hp, if_pos rfl]
      cases latestOpt ops j <;> simp
    · simp only [hp, if_false]
      cases latestOpt ops j <;> simp

theorem latestOpt_cons (p : String × String) (ops : List (String × String))
    (j : String) :
    latestOpt (p :: ops) j =
      (latestOpt ops j).or (if p.1 = j then some p.2 else none) := by
  unfold latestOpt
  rw [List.foldl_cons, latestOpt_foldl_or]
  rfl

theorem objUpsert_graph_mem {g : String → String} {l : List String} {k : String}
    (v : String) (hmem : k ∈ l) (hnd : l.Nodup) :
    objUpsert (l.map (fun j => (j, g j))) k v =
      l.map (fun j => (j, if j = k then v else g j)) := by
  induction l with
  | nil => simp at hmem
  | cons a l ih =>
    simp only [List.nodup_cons] at hnd
    by_cases hak : a = k
    · subst hak
      have : ((a, g a).1 == a) = true := by simp
      simp only [List.map_cons, objUpsert, this, if_true, if_pos rfl]
      congr 1
      refine (List.map_congr_left fun j hj => ?_).symm
      have : j ≠ a := fun h => hnd.1 (h ▸ hj)
      simp [this]
    · have : ((a, g a).1 == k) = false := by simp [hak]
      simp only [List.map_cons, objUpsert, this, Bool.false_eq_true, if_false]
      rw [ih ((List.mem_cons.mp hmem).resolve_left (fun h => hak h.symm)) hnd.2]
      simp [hak]

theorem buildReg_append_single (ops : List (String × String)) (p : String × String) :
    buildReg (ops ++ [p]) = objUpsert (buildReg ops) p.1 p.2 := by
  unfold buildReg
  rw [List.foldl_append]
  rfl

theorem mem_firstWrites_iff (ops : List (String × String)) (j : String) :
    j ∈ firstWrites ops ↔ (latestOpt ops j).isSome := by
  induction ops with
  | nil => simp [firstWrites, latestOpt]
  | cons p ops ih =>
    cases p with
    | mk i s =>
      rw [latestOpt_cons]
      have hmem : j ∈ firstWrites ((i, s) :: ops) ↔ j = i ∨ j ∈ firstWrites ops := by
        simp only [firstWrites, List.mem_cons, List.mem_filter]
        constructor
        · rintro (h | h)
          · exact Or.inl h
          · exact Or.inr h.1
        · rintro (h | h)
          · exact Or.inl h
          · by_cases hji : j = i
            · exact Or.inl hji
            · exact Or.inr ⟨h, by simp [hji]⟩
      rw [hmem]
      cases hl : latestOpt ops j with
      | some v =>
        have hj : j ∈ firstWrites ops := ih.mpr (by rw [hl]; rfl)
        simp [hj]
      | none =>
        have hnf : j ∉ firstWrites ops := fun h => by
          have hh := ih.mp h
          rw [hl] at hh
          simp at hh
        by_cases hij : i = j
        · subst hij
          simp
        · have hji : ¬j = i := fun h => hij h.symm
          simp [hji, hnf, hij]

theorem buildReg_spec (ops : List (String × String)) :
    buildReg ops = (firstWrites ops).map (fun i => (i, (latestOpt ops i).getD "")) := by
  induction ops using List.reverseRecOn with
  | nil => simp [buildReg, firstWrites]
  | append_singleton ops p ih =>
    cases p with
    | mk i s =>
      rw [buildReg_append_single, ih, firstWrites_append_single]
      by_cases hmem : i ∈ firstWrites ops
      · rw [if_pos hmem]
        rw [objUpsert_graph_mem _ hmem (firstWrites_nodup ops)]
        refine List.map_congr_left fun j hj => ?_
        rw [latestOpt_append_single]
        by_cases hji : j = i
        · simp [hji]
        · have h1 : ¬i = j := fun h => hji h.symm
          simp [hji, h1]
      · rw [if_neg hmem]
        have hkeys : i ∉ (List.map (fun i => (i, (latestOpt ops i).getD ""))
            (firstWrites ops)).map (fun p => p.1) := by
          simpa using hmem
        rw [objUpsert_of_notMem _ hkeys, List.map_append]
        congr 1
        · refine List.map_congr_left fun j hj => ?_
          rw [latestOpt_append_single]
          have : i ≠ j := fun h => hmem (h ▸ hj)
          rw [if_neg this]
        · simp [latestOpt_append_single]

theorem decRepr_numKey_of_isArrayIndex {k : String} (h : isArrayIndex k = true) :
    decRepr (numKey k) = k := by
  unfold isArrayIndex at h
  unfold numKey
  cases hp : decParse? k.data with
  | none => rw [hp] at h; simp at h
  | some n =>
    rw [hp] at h
    simp only [Bool.and_eq_true, beq_iff_eq, decide_eq_true_eq] at h
    simpa using h.1

theorem jsKeys_subset {K : List String} {k : String} (h : k ∈ jsKeys K) : k ∈ K := by
  unfold jsKeys at h
  rcases List.mem_append.mp h with h | h
  · rcases List.mem_map.mp h with ⟨n, hn, rfl⟩
    have : n ∈ (K.filter (fun k => isArrayIndex k)).map numKey :=
      (List.perm_insertionSort _ _).mem_iff.mp hn
    rcases List.mem_map.mp this with ⟨j, hj, rfl⟩
    have hidx : isArrayIndex j = true := List.of_mem_filter hj
    rw [decRepr_numKey_of_isArrayIndex hidx]
    exact List.mem_of_mem_filter hj
  · exact List.mem_of_mem_filter h

theorem aggregate_buildReg (sep : String) (ops : List (String × String)) :
    aggregate sep (buildReg ops) = jsAggregate sep ops := by
  unfold aggregate jsAggregate objValues
  rw [buildReg_spec]
  have hfst : ((firstWrites ops).map (fun i => (i, (latestOpt ops i).getD ""))).map
      (fun p => p.1) = firstWrites ops := by
    induction firstWrites ops with
    | nil => rfl
    | cons a l ih => simp only [List.map_cons, ih]
  rw [hfst]
  congr 1
  refine List.map_congr_left fun k hk => ?_
  rw [lookup_map_graph (jsKeys_subset hk)]
  rfl

/-! ## Claim theorems: runtime registry protocol -/

theorem window_eq_of_parts {a b : Window} (h1 : a.styles = b.styles)
    (h2 : a.listeners = b.listeners) : a = b := by
  cases a
  cases b
  cases h1
  cases h2
  rfl

theorem mem_keys_objUpsert {α : Type} {r : List (String × α)} {k : String}
    (i : String) (v : α) (h : k ∈ r.map (fun p => p.1)) :
    k ∈ (objUpsert r i v).map (fun p => p.1) := by
  rw [objUpsert_map_fst]
  by_cases hmem : i ∈ r.map (fun p => p.1)
  · rwa [if_pos hmem]
  · rw [if_neg hmem]
    exact List.mem_append_left _ h

/-- C1 (amended).  For every sequence of publish/remove calls for a single
identity, the aggregate delivered to subscribers in the `{identity}-styles`
event triggered by the last call equals the separator-join, in JS property
enumeration order of the fragment ids that ever received a write
(array-index-like ids first in ascending numeric order, then the remaining
ids in first-write order), of the latest text stored for each fragment id,
a removed (tombstoned) fragment contributing the empty string while keeping
its slot. -/
theorem dispatch_delivers_js_aggregate (sep m : String)
    (ops : List (String × String)) (i s : String) :
    (dispatch sep m i s (applyOps sep m ops emptyWindow)).2 =
      [jsAggregate sep (ops ++ [(i, s)])] := by
  rw [emit_dispatch sep m i s (wf_applyOps sep m ops wf_emptyWindow)]
  have hb : objUpsert (regOf (applyOps sep m ops emptyWindow) m) i s =
      buildReg (ops ++ [(i, s)]) := by
    rw [regOf_applyOps_empty]
    exact (buildReg_append_single ops (i, s)).symm
  rw [hb, aggregate_buildReg]

/-- C1 counterexample.  With fragment ids `"1"` then `"0"` the delivered
aggregate is `"ba"` (JS enumerates array-index keys numerically), while the
claim's first-write-order concatenation is `"ab"`. -/
theorem dispatch_insertion_order_cex :
    (dispatch "" "app" "0" "b" (applyOps "" "app" [("1", "a")] emptyWindow)).2 =
        ["ba"] ∧
      insertionAggregate "" [("1", "a"), ("0", "b")] = "ab" ∧
      ("ba" : String) ≠ "ab" :=
  ⟨by decide, by decide, by decide⟩

/-- C2.  A subscriber created by `getStyle` after `N ≥ 1` publishes and
before any further event synchronously receives, upon firing the
`{identity}-styles-request` event, a `{identity}-styles` event carrying the
full aggregate of those publishes, and its style element's content becomes
that aggregate. -/
theorem getStyle_replay (sep m : String) (ops : List (String × String))
    (h : ops ≠ []) :
    getStyleContent sep (applyOps sep m ops emptyWindow) m =
      some (jsAggregate sep ops) := by
  have hwf : wf (applyOps sep m ops emptyWindow) :=
    wf_applyOps sep m ops wf_emptyWindow
  have hsome : (((applyOps sep m ops emptyWindow).styles.lookup m)).isSome :=
    lookup_styles_applyOps_isSome sep m h emptyWindow
  have h1 : (applyOps sep m ops emptyWindow).listeners.count m = 1 := by
    have hw := hwf m
    rwa [if_pos hsome] at hw
  have hreg : aggregate sep (regOf (applyOps sep m ops emptyWindow) m) =
      jsAggregate sep ops := by
    rw [regOf_applyOps_empty, aggregate_buildReg]
  unfold getStyleContent emitRequest
  rw [filter_count_singleton h1]
  simp [hreg]

theorem getStyle_replay_witness :
    getStyleContent "" (applyOps "" "app" [("main", ".x")] emptyWindow) "app" =
      some (jsAggregate "" [("main", ".x")]) :=
  getStyle_replay "" "app" [("main", ".x")] (by decide)

/-- C3.  Publishing the same `(identity, fragmentId, cssText)` triple twice
in succession leaves the window state of the first publish unchanged and
yields the same aggregate, but each of the two dispatch calls still delivers
its own `{identity}-styles` emission of that aggregate. -/
theorem dispatch_idempotent_state_per_call_emission (sep m i s : String)
    (w : Window) (h : wf w) :
    (dispatch sep m i s (dispatch sep m i s w).1).1 = (dispatch sep m i s w).1 ∧
      (dispatch sep m i s w).2 =
        [aggregate sep (regOf (dispatch sep m i s w).1 m)] ∧
      (dispatch sep m i s (dispatch sep m i s w).1).2 =
        [aggregate sep (regOf (dispatch sep m i s w).1 m)] := by
  have hreg : regOf (dispatch sep m i s w).1 m = objUpsert (regOf w m) i s :=
    regOf_dispatch sep m i s w
  have hidem : objUpsert (regOf (dispatch sep m i s w).1 m) i s =
      regOf (dispatch sep m i s w).1 m := by
    rw [hreg, objUpsert_idem]
  refine ⟨?_, ?_, ?_⟩
  · have hstyles : (dispatch sep m i s (dispatch sep m i s w).1).1.styles =
        (dispatch sep m i s w).1.styles := by
      rw [styles_dispatch, hidem]
      exact objUpsert_eq_self_of_lookup (by rw [lookup_styles_dispatch_self, hreg])
    have hnone : ((dispatch sep m i s w).1.styles.lookup m).isNone = false := by
      rw [lookup_styles_dispatch_self]
      rfl
    have hlist : (dispatch sep m i s (dispatch sep m i s w).1).1.listeners =
        (dispatch sep m i s w).1.listeners := by
      rw [listeners_dispatch, hnone]
      simp
    exact window_eq_of_parts hstyles hlist
  · rw [emit_dispatch sep m i s h, hreg]
  · rw [emit_dispatch sep m i s (wf_dispatch sep m i s h), hidem]

theorem dispatch_idempotent_witness :
    (dispatch "" "m" "f" ".a" (dispatch "" "m" "f" ".a" emptyWindow).1).1 =
        (dispatch "" "m" "f" ".a" emptyWindow).1 ∧
      (dispatch "" "m" "f" ".a" emptyWindow).2 =
        [aggregate "" (regOf (dispatch "" "m" "f" ".a" emptyWindow).1 "m")] ∧
      (dispatch "" "m" "f" ".a" (dispatch "" "m" "f" ".a" emptyWindow).1).2 =
        [aggregate "" (regOf (dispatch "" "m" "f" ".a" emptyWindow).1 "m")] :=
  dispatch_idempotent_state_per_call_emission "" "m" "f" ".a" emptyWindow
    wf_emptyWindow

/-- C10.  A dispatch call for identity `m` leaves every other identity's
registry untouched, and within `m`'s registry the fragment-id set only ever
grows: no existing fragment key is deleted by any single call nor by any
further sequence of publish/remove operations. -/
theorem dispatch_touches_only_own_registry (sep m i s : String) (w : Window) :
    (∀ m', m' ≠ m →
        (dispatch sep m i s w).1.styles.lookup m' = w.styles.lookup m') ∧
      (∀ k, k ∈ regKeys w m → k ∈ regKeys (dispatch sep m i s w).1 m) ∧
      (∀ ops k, k ∈ regKeys w m → k ∈ regKeys (applyOps sep m ops w) m) := by
  have hsingle : ∀ (i' s' : String) (w' : Window) (k : String),
      k ∈ regKeys w' m → k ∈ regKeys (dispatch sep m i' s' w').1 m := by
    intro i' s' w' k hk
    unfold regKeys at hk ⊢
    rw [regOf_dispatch]
    exact mem_keys_objUpsert i' s' hk
  refine ⟨?_, hsingle i s w, ?_⟩
  · intro m' hm'
    exact lookup_styles_dispatch_ne sep m i s w hm'
  · intro ops
    induction ops generalizing w with
    | nil => intro k hk; exact hk
    | cons p ops ih =>
      intro k hk
      rw [applyOps_cons]
      exact ih _ _ (hsingle p.1 p.2 w k hk)

theorem dispatch_cross_identity_witness :
    (dispatch "" "a" "f" "x" (applyOps "" "b" [("g", "y")] emptyWindow)).1.styles.lookup "b" =
      (applyOps "" "b" [("g", "y")] emptyWindow).styles.lookup "b" :=
  (dispatch_touches_only_own_registry "" "a" "f" "x"
    (applyOps "" "b" [("g", "y")] emptyWindow)).1 "b" (by decide)

/-! ## Occurrence lemmas for the text rewriters -/

theorem mem_occurs {pat l : List Char} {i : Nat} :
    i ∈ occurs pat l ↔ i ≤ l.length ∧ pat.isPrefixOf (l.drop i) = true := by
  unfold occurs
  rw [List.mem_filter, List.mem_range]
  constructor
  · rintro ⟨h1, h2⟩
    exact ⟨Nat.lt_succ_iff.mp h1, h2⟩
  · rintro ⟨h1, h2⟩
    exact ⟨Nat.lt_succ_iff.mpr h1, h2⟩

theorem prefixB_of_occurs_nil {pat l : List Char} (h : occurs pat l = [])
    (i : Nat) : pat.isPrefixOf (l.drop i) = false := by
  by_cases hi : i ≤ l.length
  · cases hp : pat.isPrefixOf (l.drop i)
    · rfl
    · have : i ∈ occurs pat l := mem_occurs.mpr ⟨hi, hp⟩
      rw [h] at this
      simp at this
  · rw [List.drop_eq_nil_of_le (by omega)]
    cases pat with
    | nil =>
      have : (0 : Nat) ∈ occurs ([] : List Char) l :=
        mem_occurs.mpr ⟨Nat.zero_le _, by simp [List.isPrefixOf]⟩
      rw [h] at this
      simp at this
    | cons c cs => rfl

theorem occurs_nil_cons {pat : List Char} {c : Char} {cs : List Char}
    (h : occurs pat (c :: cs) = []) : occurs pat cs = [] := by
  rw [List.eq_nil_iff_forall_not_mem]
  intro i hi
  rcases mem_occurs.mp hi with ⟨h1, h2⟩
  have : (i + 1) ∈ occurs pat (c :: cs) :=
    mem_occurs.mpr ⟨by simpa using Nat.succ_le_succ h1, by simpa using h2⟩
  rw [h] at this
  simp at this

theorem prefixB_append {pat xs : List Char} (ys : List Char)
    (h : pat.isPrefixOf xs = true) : pat.isPrefixOf (xs ++ ys) = true := by
  induction pat generalizing xs with
  | nil => simp [List.isPrefixOf]
  | cons a pat ih =>
    cases xs with
    | nil => simp [List.isPrefixOf] at h
    | cons x xs =>
      simp only [List.isPrefixOf, List.cons_append, Bool.and_eq_true] at h ⊢
      exact ⟨h.1, ih h.2⟩

theorem occurs_nil_takeWhile {pat l : List Char} (p : Char → Bool)
    (h : occurs pat l = []) : occurs pat (l.takeWhile p) = [] := by
  rw [List.eq_nil_iff_forall_not_mem]
  intro i hi
  rcases mem_occurs.mp hi with ⟨h1, h2⟩
  have hsplit : l = l.takeWhile p ++ l.dropWhile p :=
    (List.takeWhile_append_dropWhile p l).symm
  have hdrop : l.drop i = (l.takeWhile p).drop i ++ l.dropWhile p := by
    conv_lhs => rw [hsplit]
    exact List.drop_append_of_le_length h1
  have : pat.isPrefixOf (l.drop i) = true := by
    rw [hdrop]
    exact prefixB_append _ h2
  rw [prefixB_of_occurs_nil h i] at this
  simp at this

theorem linkMatchLen_none_of_no_href {cs : List Char}
    (h : occurs hrefLit (cs.takeWhile (fun c => c ≠ '\n')) = []) :
    linkMatchLen cs = none := by
  unfold linkMatchLen
  by_cases hp : linkLit.isPrefixOf cs
  · rw [if_pos hp]
    simp only [ne_eq, decide_not] at h
    simp [h]
  · rw [if_neg hp]

theorem stripGo_no_href : ∀ (fuel : Nat) {l : List Char},
    occurs hrefLit l = [] → stripGo fuel l = l := by
  intro fuel
  induction fuel with
  | zero => intro l _; rfl
  | succ fuel ih =>
    intro l h
    cases l with
    | nil => rfl
    | cons c cs =>
      have hm : linkMatchLen (c :: cs) = none :=
        linkMatchLen_none_of_no_href (occurs_nil_takeWhile _ h)
      unfold stripGo
      rw [hm]
      rw [ih (occurs_nil_cons h)]

theorem lazyCallMatchLen_none_of_no_occ {lit cs : List Char}
    (h : lit.isPrefixOf cs = false) : lazyCallMatchLen lit cs = none := by
  unfold lazyCallMatchLen
  rw [h]
  rfl

theorem replFirstReGo_no_occ {lit : List Char} (repl : List Char) :
    ∀ {l : List Char} (pre : List Char), occurs lit l = [] →
      replFirstReGo (lazyCallMatchLen lit) repl pre l = l := by
  intro l
  induction l with
  | nil => intro pre _; rfl
  | cons c cs ih =>
    intro pre h
    have h0 : lit.isPrefixOf (c :: cs) = false := by
      have := prefixB_of_occurs_nil h 0
      simpa using this
    unfold replFirstReGo
    rw [lazyCallMatchLen_none_of_no_occ h0]
    rw [ih _ (occurs_nil_cons h)]

/-! ## Claim C5: removing a never-published fragment -/

theorem joinSep_empty_cons (x : String) (l : List String) :
    joinSep "" (x :: l) = x ++ joinSep "" l := by
  cases l with
  | nil => simp [joinSep, String.append_empty]
  | cons y ys => simp [joinSep, String.append_assoc]

theorem joinSep_empty_append (l₁ l₂ : List String) :
    joinSep "" (l₁ ++ l₂) = joinSep "" l₁ ++ joinSep "" l₂ := by
  induction l₁ with
  | nil => simp [joinSep, String.empty_append]
  | cons x l₁ ih =>
    rw [List.cons_append, joinSep_empty_cons, ih, joinSep_empty_cons,
      String.append_assoc]

theorem joinSep_empty_insert_empty (V₁ V₂ : List String) :
    joinSep "" (V₁ ++ "" :: V₂) = joinSep "" (V₁ ++ V₂) := by
  rw [joinSep_empty_append, joinSep_empty_append, joinSep_empty_cons,
    String.empty_append]

theorem lookup_append_left {α : Type} {r : List (String × α)} (t : List (String × α))
    {k : String} (h : (r.lookup k).isSome) : (r ++ t).lookup k = r.lookup k := by
  rw [lookup_append]
  cases hl : r.lookup k with
  | none => rw [hl] at h; simp at h
  | some v => simp

theorem jsKeys_append_notIdx {K : List String} {i : String}
    (h : isArrayIndex i = false) : jsKeys (K ++ [i]) = jsKeys K ++ [i] := by
  unfold jsKeys
  rw [List.filter_append, List.filter_append]
  simp [h, List.append_assoc]

theorem insertionSort_append_singleton (nums : List Nat) (nb : Nat) :
    (nums ++ [nb]).insertionSort (· ≤ ·) =
      ((nums.insertionSort (· ≤ ·)).orderedInsert (· ≤ ·) nb) := by
  apply List.eq_of_perm_of_sorted (r := (· ≤ ·))
  · refine ((List.perm_insertionSort _ _).trans ?_).trans
      (List.perm_orderedInsert _ _ _).symm
    exact (List.perm_append_singleton _ _).trans
      (List.Perm.cons _ (List.perm_insertionSort _ _).symm)
  · exact List.sorted_insertionSort _ _
  · exact List.Sorted.orderedInsert nb _ (List.sorted_insertionSort _ _)

theorem decRepr_mem_of_mem_sorted {K : List String} {n : Nat}
    (hn : n ∈ ((K.filter (fun k => isArrayIndex k)).map numKey).insertionSort (· ≤ ·)) :
    decRepr n ∈ K := by
  have : n ∈ (K.filter (fun k => isArrayIndex k)).map numKey :=
    (List.perm_insertionSort _ _).mem_iff.mp hn
  rcases List.mem_map.mp this with ⟨j, hj, rfl⟩
  rw [decRepr_numKey_of_isArrayIndex (List.of_mem_filter hj)]
  exact List.mem_of_mem_filter hj

theorem objValues_snoc {r : List (String × String)} {i : String} (v : String)
    (h : i ∉ r.map (fun p => p.1)) :
    ∃ V₁ V₂, objValues r = V₁ ++ V₂ ∧
      objValues (r ++ [(i, v)]) = V₁ ++ v :: V₂ := by
  have hkeys : (r ++ [(i, v)]).map (fun p => p.1) = r.map (fun p => p.1) ++ [i] := by
    simp
  have hlkA : ∀ k ∈ r.map (fun p => p.1),
      ((r ++ [(i, v)]).lookup k) = r.lookup k := fun k hk =>
    lookup_append_left _ (lookup_isSome_of_mem hk)
  have hlkI : ((r ++ [(i, v)]).lookup i) = some v := by
    rw [lookup_append, lookup_eq_none_of_notMem h]
    simp [List.lookup]
  by_cases hidx : isArrayIndex i = true
  · -- array-index fragment id: it is sorted into the index-key section
    set K := r.map (fun p => p.1) with hK
    set sorted := ((K.filter (fun k => isArrayIndex k)).map numKey).insertionSort (· ≤ ·)
      with hsorted
    have hsplit : sorted.orderedInsert (· ≤ ·) (numKey i) =
        (sorted.takeWhile fun b => ¬numKey i ≤ b) ++
          numKey i :: (sorted.dropWhile fun b => ¬numKey i ≤ b) :=
      List.orderedInsert_eq_take_drop _ _ _
    set A := sorted.takeWhile fun b => ¬numKey i ≤ b with hA
    set B := sorted.dropWhile fun b => ¬numKey i ≤ b with hB
    have hAB : A ++ B = sorted := List.takeWhile_append_dropWhile ..
    have hjsK : jsKeys K = A.map decRepr ++ B.map decRepr ++
        K.filter (fun k => !isArrayIndex k) := by
      unfold jsKeys
      rw [← hsorted, ← hAB, List.map_append]
    have hjsK' : jsKeys (K ++ [i]) = A.map decRepr ++
        (decRepr (numKey i) :: B.map decRepr) ++
        K.filter (fun k => !isArrayIndex k) := by
      unfold jsKeys
      rw [List.filter_append, List.filter_append]
      have h1 : List.filter (fun k => isArrayIndex k) [i] = [i] := by simp [hidx]
      have h2 : List.filter (fun k => !isArrayIndex k) [i] = [] := by simp [hidx]
      rw [h1, h2, List.append_nil, List.map_append]
      have hins : ((K.filter (fun k => isArrayIndex k)).map numKey ++ [numKey i]).insertionSort
          (· ≤ ·) = A ++ numKey i :: B := by
        rw [insertionSort_append_singleton, ← hsorted, hsplit]
      simp only [List.map_cons, List.map_nil] at hins ⊢
      rw [hins, List.map_append, List.map_cons, List.append_assoc]
    have hmemA : ∀ k ∈ A.map decRepr, k ∈ K := by
      intro k hk
      rcases List.mem_map.mp hk with ⟨n, hn, rfl⟩
      have hns : n ∈ sorted := by
        rw [← hAB]
        exact List.mem_append_left B hn
      rw [hsorted] at hns
      exact decRepr_mem_of_mem_sorted hns
    have hmemB : ∀ k ∈ B.map decRepr, k ∈ K := by
      intro k hk
      rcases List.mem_map.mp hk with ⟨n, hn, rfl⟩
      have hns : n ∈ sorted := by
        rw [← hAB]
        exact List.mem_append_right A hn
      rw [hsorted] at hns
      exact decRepr_mem_of_mem_sorted hns
    have hmemN : ∀ k ∈ K.filter (fun k => !isArrayIndex k), k ∈ K :=
      fun k hk => List.mem_of_mem_filter hk
    refine ⟨(A.map decRepr).map (fun k => ((r.lookup k).getD "")),
      ((B.map decRepr ++ K.filter (fun k => !isArrayIndex k)).map
        (fun k => ((r.lookup k).getD ""))), ?_, ?_⟩
    · unfold objValues
      rw [← hK, hjsK, List.append_assoc, List.map_append]
    · have eA : (A.map decRepr).map (fun k => ((r ++ [(i, v)]).lookup k).getD "") =
          (A.map decRepr).map (fun k => (r.lookup k).getD "") :=
        List.map_congr_left fun k hk => by rw [hlkA k (hmemA k hk)]
      have eB : (B.map decRepr).map (fun k => ((r ++ [(i, v)]).lookup k).getD "") =
          (B.map decRepr).map (fun k => (r.lookup k).getD "") :=
        List.map_congr_left fun k hk => by rw [hlkA k (hmemB k hk)]
      have eN : (K.filter (fun k => !isArrayIndex k)).map
            (fun k => ((r ++ [(i, v)]).lookup k).getD "") =
          (K.filter (fun k => !isArrayIndex k)).map (fun k => (r.lookup k).getD "") :=
        List.map_congr_left fun k hk => by rw [hlkA k (hmemN k hk)]
      have hri : decRepr (numKey i) = i := decRepr_numKey_of_isArrayIndex hidx
      unfold objValues
      rw [hkeys, hjsK']
      simp only [List.map_append, List.map_cons, List.append_assoc, List.cons_append,
        hri, hlkI, Option.getD_some, eA, eB, eN]
  · -- ordinary string key: appended at the end of the enumeration
    have hidx' : isArrayIndex i = false := by
      cases hx : isArrayIndex i
      · rfl
      · exact absurd hx hidx
    refine ⟨objValues r, [], ?_, ?_⟩
    · simp
    · unfold objValues
      rw [hkeys, jsKeys_append_notIdx hidx', List.map_append]
      congr 1
      · exact List.map_congr_left fun k hk => by rw [hlkA k (jsKeys_subset hk)]
      · simp [hlkI]

/-- C5.  Removing a fragment that was never published (dispatching empty
text for a fragment id with no prior write, including when no registry
exists yet for the identity, in which case `regOf` is the empty style set)
is an observable no-op: the model is total (no exception path), the
aggregate after the call equals the aggregate before it, and the emission
delivered to subscribers carries that unchanged aggregate. -/
theorem remove_never_published_noop (m i : String) (w : Window) (h : wf w)
    (hni : i ∉ regKeys w m) :
    aggregate "" (regOf (dispatch "" m i "" w).1 m) = aggregate "" (regOf w m) ∧
      (dispatch "" m i "" w).2 = [aggregate "" (regOf w m)] := by
  have hup : objUpsert (regOf w m) i "" = regOf w m ++ [(i, "")] :=
    objUpsert_of_notMem _ hni
  have hagg : aggregate "" (regOf w m ++ [(i, "")]) = aggregate "" (regOf w m) := by
    obtain ⟨V₁, V₂, h1, h2⟩ := objValues_snoc "" hni
    unfold aggregate
    rw [h1, h2, joinSep_empty_insert_empty]
  constructor
  · rw [regOf_dispatch, hup, hagg]
  · rw [emit_dispatch _ _ _ _ h, hup, hagg]

theorem remove_never_published_witness :
    aggregate "" (regOf (dispatch "" "app" "y" ""
        (applyOps "" "app" [("x", ".a")] emptyWindow)).1 "app") =
      aggregate "" (regOf (applyOps "" "app" [("x", ".a")] emptyWindow) "app") ∧
      (dispatch "" "app" "y" "" (applyOps "" "app" [("x", ".a")] emptyWindow)).2 =
        [aggregate "" (regOf (applyOps "" "app" [("x", ".a")] emptyWindow) "app")] :=
  remove_never_published_noop "app" "y" _
    (wf_applyOps "" "app" [("x", ".a")] wf_emptyWindow) (by decide)

/-! ## Claim theorems: build-time text processing -/

/-- C6 counterexample.  On an HTML line holding an absolute-href CSS link
followed by a relative one, the greedy pattern
`/<link.+href="\.\/.+\.css">/g` matches from the first `<link` through the
last `.css">`, so the absolute/external link is removed as well (the whole
text becomes empty), contradicting "leaves `<link>` tags with absolute or
external hrefs unaffected". -/
theorem stripCssLinks_absolute_removed_cex :
    stripCssLinks
        "<link rel=\"s\" href=\"https://x/a.css\"><link rel=\"s\" href=\"./b.css\">" =
        "" ∧
      occurs "https://x/a.css".toList
        "<link rel=\"s\" href=\"https://x/a.css\"><link rel=\"s\" href=\"./b.css\">".data ≠
        [] :=
  ⟨by decide, by decide⟩

/-- C6 (amended).  The Bundle Rewrite Stage leaves unchanged every HTML text
in which `href="./` never occurs (in particular any text whose links are all
absolute or external), and on generated one-link-per-line HTML it removes
exactly the relative bundle-local CSS link tags, leaving absolute/external
link lines intact; when a relative CSS link shares a line with earlier tags,
the greedy match also removes the earlier tags of that line. -/
theorem stripCssLinks_relative_only :
    (∀ s : String, occurs hrefLit s.data = [] → stripCssLinks s = s) ∧
      stripCssLinks
          "<head>\n<link rel=\"stylesheet\" crossorigin href=\"./index.css\">\n<link rel=\"stylesheet\" href=\"https://cdn.example/x.css\">\n</head>" =
        "<head>\n\n<link rel=\"stylesheet\" href=\"https://cdn.example/x.css\">\n</head>" := by
  constructor
  · intro s h
    unfold stripCssLinks
    rw [stripGo_no_href _ h]
  · decide

theorem stripCssLinks_relative_only_witness :
    stripCssLinks "<p>hello</p>" = "<p>hello</p>" :=
  stripCssLinks_relative_only.1 "<p>hello</p>" (by decide)

/-- C7.  The escaping applied by `generateBundle` before splicing CSS into
the generated template literal handles only bare backticks: on the CSS text
`` a\` `` (backslash, then backtick) the escaped text is `` a\\` ``, in
which the introduced backslash is itself escaped and the raw backtick
terminates the template literal early — evaluating the generated literal
body fails (`none`) instead of yielding back the trimmed CSS text, so the
generated chunk is syntactically broken. -/
theorem escape_fails_backslash_backtick :
    escapeStyle "a\\`" = "a\\\\`" ∧
      templBody (escapeStyle "a\\`").data = none ∧
      trimChars "a\\`".data = "a\\`".data :=
  ⟨by decide, by decide, by decide⟩

/-- C4.  The dev-time rewrite of the bundler's remove-style call is the
publish operation with empty text: the generated replacement splices the
same dispatch source applied to `''`, the remove operation is definitionally
`publish` with `""`, and removing an existing fragment preserves the
registry's fragment ordering (tombstone, not deletion). -/
theorem remove_is_publish_empty (sep m i : String) (w : Window) :
    (∀ d : String, rmvReplStr d =
        "(" ++ d ++ ")(__vite__id," ++ (⟨[quot1, quot1]⟩ : String) ++ ")") ∧
      removeOp sep m i w = publish sep m i "" w ∧
      (i ∈ regKeys w m → regKeys (removeOp sep m i w).1 m = regKeys w m) := by
  refine ⟨fun d => rfl, rfl, fun h => ?_⟩
  unfold removeOp regKeys
  rw [regOf_dispatch]
  exact objUpsert_map_fst_of_mem _ h

theorem remove_is_publish_empty_witness :
    regKeys (removeOp "" "app" "f" (applyOps "" "app" [("f", ".a")] emptyWindow)).1
        "app" =
      regKeys (applyOps "" "app" [("f", ".a")] emptyWindow) "app" :=
  (remove_is_publish_empty "" "app" "f"
    (applyOps "" "app" [("f", ".a")] emptyWindow)).2.2 (by decide)

/-- C9 counterexample.  `transform` uses `String.prototype.replace` without
a global flag, so with two `__vite__updateStyle(...)` calls in one module
only the first is rewritten: an update-style call expression survives in the
output, contradicting "every such call expression present in the module's
code is rewritten". -/
theorem transform_second_call_not_rewritten_cex :
    transformMfeCss "D" "__vite__updateStyle(a);__vite__updateStyle(b);" =
        ";(D)(__vite__id,__vite__css);__vite__updateStyle(b);" ∧
      occurs updLit (transformMfeCss "D"
        "__vite__updateStyle(a);__vite__updateStyle(b);").data ≠ [] :=
  ⟨by decide, by decide⟩

/-- C9 (amended).  The dev-time transform rewrites the first
`__vite__updateStyle(...)` and the first `__vite__removeStyle(...)` call
expression of a module (the bundler emits exactly one of each per CSS
module) into invocations of the dispatcher bound to the identity, preserving
the two positional arguments the bundler supplies; a module containing no
such call is returned unchanged. -/
theorem transform_rewrites_first_calls :
    (∀ (d code : String), occurs updLit code.data = [] →
        occurs rmvLit code.data = [] → transformMfeCss d code = code) ∧
      transformMfeCss "dispatchFn"
          "import x;\n__vite__updateStyle(__vite__id, __vite__css)\n__vite__removeStyle(__vite__id)\n" =
        "import x;\n" ++ updReplStr "dispatchFn" ++ "\n" ++
          rmvReplStr "dispatchFn" ++ "\n" := by
  constructor
  · intro d code h1 h2
    unfold transformMfeCss
    rw [replFirstReGo_no_occ _ _ h1, replFirstReGo_no_occ _ _ h2]
  · decide

theorem transform_rewrites_first_calls_witness :
    transformMfeCss "dispatchFn" "const x = 1" = "const x = 1" :=
  transform_rewrites_first_calls.1 "dispatchFn" "const x = 1" (by decide) (by decide)

/-- C8.  Under the bundler's metadata contract (a chunk's recorded imported
CSS file names refer to CSS assets of the bundle), `generateBundle` skips
every chunk with an empty imported-CSS set (code unchanged), appends to
every other chunk the compiled dispatcher invocation embedding its
concatenated CSS and clears its imported-CSS metadata, and afterwards no
chunk's imported-CSS set is non-empty. -/
theorem generateBundle_chunk_frame (sep dc : String) (css : List OutAsset)
    (js : List OutChunk)
    (h : ∀ ch ∈ js, ∀ f ∈ ch.importedCss, f ∈ css.map (fun a => a.fileName)) :
    (∀ ch ∈ js, ch.importedCss = [] → processChunk sep dc css ch = ch) ∧
      (∀ ch ∈ js, ch.importedCss ≠ [] →
        (processChunk sep dc css ch).code = ch.code ++ "\n;" ++
            jsReplaceFirst dc "(args)"
              ("(" ++ (⟨[tick]⟩ : String) ++ ch.name ++ (⟨[tick]⟩ : String) ++ "," ++
                (⟨[tick]⟩ : String) ++ chunkStyleText sep css ch ++
                (⟨[tick]⟩ : String) ++ ")") ∧
          (processChunk sep dc css ch).importedCss = []) ∧
      (∀ ch' ∈ generateBundleJs sep dc css js, ch'.importedCss = []) := by
  have hempty : ∀ ch : OutChunk, ch.importedCss = [] →
      css.filter (fun a => ch.importedCss.contains a.fileName) = [] := by
    intro ch hc
    rw [hc]
    simp
  have hnon : ∀ ch ∈ js, ch.importedCss ≠ [] →
      css.filter (fun a => ch.importedCss.contains a.fileName) ≠ [] := by
    intro ch hch hne
    obtain ⟨f, hf⟩ := List.exists_mem_of_ne_nil _ hne
    obtain ⟨a, ha, hfa⟩ := List.mem_map.mp (h ch hch f hf)
    have hmem : a ∈ css.filter (fun a => ch.importedCss.contains a.fileName) := by
      rw [List.mem_filter]
      exact ⟨ha, by rw [hfa]; exact List.elem_eq_true_of_mem hf⟩
    intro hnil
    rw [hnil] at hmem
    simp at hmem
  have hskip : ∀ ch : OutChunk, ch.importedCss = [] → processChunk sep dc css ch = ch := by
    intro ch hc
    unfold processChunk
    rw [hempty ch hc]
    rfl
  have hwrite : ∀ ch ∈ js, ch.importedCss ≠ [] →
      (processChunk sep dc css ch).code = ch.code ++ "\n;" ++
          jsReplaceFirst dc "(args)"
            ("(" ++ (⟨[tick]⟩ : String) ++ ch.name ++ (⟨[tick]⟩ : String) ++ "," ++
              (⟨[tick]⟩ : String) ++ chunkStyleText sep css ch ++
              (⟨[tick]⟩ : String) ++ ")") ∧
        (processChunk sep dc css ch).importedCss = [] := by
    intro ch hch hne
    have hf : (css.filter (fun a => ch.importedCss.contains a.fileName)).isEmpty = false := by
      cases hx : css.filter (fun a => ch.importedCss.contains a.fileName) with
      | nil => exact absurd hx (hnon ch hch hne)
      | cons b bs => rfl
    unfold processChunk
    simp only [hf, Bool.false_eq_true, if_false]
    exact ⟨trivial, trivial⟩
  refine ⟨fun ch _ hc => hskip ch hc, hwrite, ?_⟩
  intro ch' hch'
  obtain ⟨ch, hch, rfl⟩ := List.mem_map.mp hch'
  by_cases hc : ch.importedCss = []
  · rw [hskip ch hc]
    exact hc
  · exact (hwrite ch hch hc).2

theorem generateBundle_chunk_frame_witness :
    (processChunk "" "DC(args)" [⟨"a.css", ".x"⟩] ⟨"main", "CODE", ["a.css"]⟩).importedCss =
      [] :=
  (generateBundle_chunk_frame "" "DC(args)" [⟨"a.css", ".x"⟩]
    [⟨"main", "CODE", ["a.css"]⟩] (by decide)).2.2 _ (by decide)

end MfeVite
